import Mathlib

/-
Verification development for the entropic_void repository.

The repository contains two layers:
* the implemented simulation core in src/entropic_void/src/lib.rs
  (Cell / EnergyGroup / Subgroup / EnergyPacket data model, generate_lattice,
  simulate_tick with flux tensors), embedded below in namespace Lib;
* a skeleton module layer (types.rs, lattice.rs, energy.rs, transport.rs)
  whose implemented parts (Lattice::new, cell_count_size, index, coord,
  in_bounds, neighbors_6) are embedded below in namespace Skel, and whose
  unimplemented parts (bodies that are todo!()) are modelled from the
  specification where a claim needs them.

Machine floats are embedded as rationals: every claim under scrutiny is an
exact-arithmetic identity (conservation, idempotence, index algebra), so the
rationals carry exactly the intended content.  usize and u128 arithmetic is
embedded as Nat with explicit bounds 2^64 and 2^128 at each checked operation.
-/

namespace Skel

/-- Number of energy variables, from types.rs (VARS = 5). -/
abbrev VARS : Nat := 5

/-- Number of forces, from types.rs (FORCES = 4). -/
abbrev FORCES : Nat := 4

/-- CellState from types.rs: energy per variable per force in one cell. -/
abbrev CellState := Fin VARS → Fin FORCES → ℚ

/-- LatticeCoord from types.rs. -/
structure LatticeCoord where
  x : Nat
  y : Nat
  z : Nat
deriving DecidableEq, Repr

/-- Upper bound of the usize domain (64-bit). -/
def U64SIZE : Nat := 2 ^ 64

/-- Upper bound of the u128 domain. -/
def U128SIZE : Nat := 2 ^ 128

/-- Rust u128::checked_mul: multiplication that fails on overflow. -/
def checkedMul128 (a b : Nat) : Option Nat :=
  if a * b < U128SIZE then some (a * b) else none

/-- Rust u128::checked_add: addition that fails on overflow. -/
def checkedAdd128 (a b : Nat) : Option Nat :=
  if a + b < U128SIZE then some (a + b) else none

/-- Rust u128::checked_div: division that fails exactly when the divisor is zero. -/
def checkedDiv128 (a b : Nat) : Option Nat :=
  if b = 0 then none else some (a / b)

/-- Rust u128::checked_rem: remainder that fails exactly when the divisor is zero. -/
def checkedRem128 (a b : Nat) : Option Nat :=
  if b = 0 then none else some (a % b)

/-- Rust usize::checked_add. -/
def checkedAddUsize (a b : Nat) : Option Nat :=
  if a + b < U64SIZE then some (a + b) else none

/-- Rust usize::checked_sub: fails when the subtrahend exceeds the minuend. -/
def checkedSubUsize (a b : Nat) : Option Nat :=
  if b ≤ a then some (a - b) else none

/-- The all-zero cell produced by Lattice::new in lattice.rs. -/
def zeroCell : CellState := fun _ _ => 0

/-- Lattice from lattice.rs: dimensions plus a flat vector of cell states. -/
structure Lattice where
  size : Nat × Nat × Nat
  cells : List CellState

namespace Lattice

/-- Lattice::cell_count_size from lattice.rs lines 46-51: widened product of the
three dimensions with checked multiplication. -/
def cell_count_size (size : Nat × Nat × Nat) : Option Nat :=
  (checkedMul128 size.1 size.2.1).bind fun p => checkedMul128 p size.2.2

/-- Lattice::new from lattice.rs lines 25-36: allocates cell_count_size zero
cells, or fails when the checked product fails. -/
def new (size : Nat × Nat × Nat) : Option Lattice :=
  (cell_count_size size).map fun n => { size := size, cells := List.replicate n zeroCell }

/-- Lattice::index from lattice.rs lines 56-63, exactly as written there: the
layer stride is cell_count * cell_count and the row stride is cell_count,
where cell_count is the full product of the three dimensions. -/
def index (l : Lattice) (coord : LatticeCoord) : Option Nat := do
  let n ← cell_count_size l.size
  let nn ← checkedMul128 n n
  let layer ← checkedMul128 nn coord.z
  let row ← checkedMul128 n coord.y
  let xr ← checkedAdd128 coord.x row
  checkedAdd128 xr layer

/-- Lattice::coord from lattice.rs lines 68-80, exactly as written there: the
quotient by cell_count squared is assigned to x and the final remainder to z;
the u128 results are truncated to usize. -/
def coord (l : Lattice) (index : Nat) : Option LatticeCoord := do
  let n ← cell_count_size l.size
  let n2 ← checkedMul128 n n
  let x ← checkedDiv128 index n2
  let r ← checkedRem128 index n2
  let y ← checkedDiv128 r n
  let z ← checkedRem128 r n
  some { x := x % U64SIZE, y := y % U64SIZE, z := z % U64SIZE }

/-- Lattice::in_bounds from lattice.rs lines 97-99. -/
def in_bounds (l : Lattice) (coord : LatticeCoord) : Bool :=
  decide (coord.x < l.size.1) && decide (coord.y < l.size.2.1) &&
    decide (coord.z < l.size.2.2)

/-- Lattice::neighbors_6 from lattice.rs lines 112-124, exactly as written
there: after an in_bounds check on the query coordinate the six axis offsets
are produced with checked arithmetic, each failure aborting the whole call,
and no bounds check is applied to the produced coordinates. -/
def neighbors_6 (l : Lattice) (coord : LatticeCoord) : Option (List LatticeCoord) :=
  if l.in_bounds coord then do
    let xp ← checkedAddUsize coord.x 1
    let xm ← checkedSubUsize coord.x 1
    let yp ← checkedAddUsize coord.y 1
    let ym ← checkedSubUsize coord.y 1
    let zp ← checkedAddUsize coord.z 1
    let zm ← checkedSubUsize coord.z 1
    some [{ coord with x := xp }, { coord with x := xm }, { coord with y := yp },
      { coord with y := ym }, { coord with z := zp }, { coord with z := zm }]
  else none

end Lattice

/-- ExpressionConstraint from types.rs. -/
structure ExpressionConstraint where
  locked : Bool
  force_pct : Fin FORCES → ℚ

/-- VariableConstraint from types.rs. -/
inductive VariableConstraint where
  | Free : VariableConstraint
  | FixedTotal : ℚ → VariableConstraint
  | FixedRatio : (Fin VARS → ℚ) → VariableConstraint
deriving DecidableEq

/-- TransferMask from types.rs. -/
structure TransferMask where
  allow_var_to_var : Fin VARS → Fin VARS → Bool
  allow_force_to_force : Fin FORCES → Fin FORCES → Bool

/-- ConstraintSet from types.rs. -/
structure ConstraintSet where
  var_constraints : Fin VARS → VariableConstraint
  expr_constraints : Fin VARS → ExpressionConstraint
  transfer_mask : TransferMask

/-- Whether a variable constraint is a FixedRatio constraint. -/
def VariableConstraint.isRatio : VariableConstraint → Bool
  | .FixedRatio _ => true
  | _ => false

/-- Normalized weight a FixedRatio constraint assigns to variable i; zero for
the other constraint forms.  The specification normalizes ratio arrays to sum
to one before use. -/
def VariableConstraint.ratioCoeff : VariableConstraint → Fin VARS → ℚ
  | .FixedRatio r, i => r i / ∑ j, r j
  | _, _ => 0

/-- Row sum of one variable, the per_variable entry of energy.rs (section 4.2
of the specification: row sums of the VARS by FORCES matrix). -/
def rowSum (c : CellState) (i : Fin VARS) : ℚ := ∑ f, c i f

/-- Modelled from the spec: the body of apply_expression_constraints in
energy.rs is todo!().  Section 4.2: for each variable i whose expression
constraint is locked, recompute cell[i][*] = per_variable(cell)[i] *
force_pct[i][*]; other rows are untouched. -/
def apply_expression_constraints (c : CellState) (ec : Fin VARS → ExpressionConstraint) :
    CellState :=
  fun i f => if (ec i).locked then rowSum c i * (ec i).force_pct f else c i f

/-- Modelled from the spec: the row rescaling used by the todo!() body of
apply_variable_constraints in energy.rs.  Section 4.2: scale the row so its
sum equals t; if the current sum is zero, distribute t uniformly across the
row rather than dividing by zero (the defined zero-total tie-break). -/
def scaleRowTo (row : Fin FORCES → ℚ) (t : ℚ) : Fin FORCES → ℚ :=
  if (∑ f, row f) = 0 then fun _ => t / (FORCES : ℚ) else fun f => row f * (t / ∑ g, row g)

/-- Modelled from the spec: combined current total energy of the rows under
ratio-constrained variables, used by the FixedRatio branch of
apply_variable_constraints (section 4.2). -/
def ratioTotal (c : CellState) (vc : Fin VARS → VariableConstraint) : ℚ :=
  ∑ i ∈ Finset.univ.filter (fun i => (vc i).isRatio = true), rowSum c i

/-- Modelled from the spec: the body of apply_variable_constraints in
energy.rs is todo!().  Section 4.2: Free rows are untouched; FixedTotal(t)
rows are rescaled to sum t; FixedRatio rows are rescaled so row totals match
the normalized ratios applied to the combined total of the ratio-constrained
rows. -/
def apply_variable_constraints (c : CellState) (vc : Fin VARS → VariableConstraint) :
    CellState :=
  fun i => match vc i with
    | .Free => c i
    | .FixedTotal t => scaleRowTo (c i) t
    | .FixedRatio r => scaleRowTo (c i) ((r i / ∑ j, r j) * ratioTotal c vc)

/-- Modelled from the spec: the body of project_energy in energy.rs is
todo!().  Section 4.2: apply expression constraints first, then variable
constraints.  The optional global drift-correction pass is a configurable
policy with no flag in the ConstraintSet type, so it is not part of the
projection. -/
def project_energy (c : CellState) (cs : ConstraintSet) : CellState :=
  apply_variable_constraints (apply_expression_constraints c cs.expr_constraints)
    cs.var_constraints

/-- Modelled from the spec: the body of exchange_exact in transport.rs is
todo!().  Section 4.4: transfer delta = coupling * dt * (E_b - E_a), clamped
so neither side goes negative; the pair is updated to (E_a + delta,
E_b - delta) at channel (var_i, force_f) only. -/
def exchange_exact (cell_a cell_b : CellState) (var_i : Fin VARS) (force_f : Fin FORCES)
    (coupling dt : ℚ) : CellState × CellState :=
  let ea := cell_a var_i force_f
  let eb := cell_b var_i force_f
  let raw := coupling * dt * (eb - ea)
  let delta := max (-ea) (min raw eb)
  (fun i f => if i = var_i ∧ f = force_f then ea + delta else cell_a i f,
   fun i f => if i = var_i ∧ f = force_f then eb - delta else cell_b i f)

/-- Mask allowing every transfer; used for concrete constraint sets. -/
def fullMask : TransferMask :=
  { allow_var_to_var := fun _ _ => true, allow_force_to_force := fun _ _ => true }

/-- Concrete all-zero cell state for the idempotence counterexample. -/
def cexCell : CellState := fun _ _ => 0

/-- Concrete constraint set for the idempotence counterexample: variable 0 is
expression-locked onto force 0 and carries FixedTotal 5; all other variables
are free and unlocked. -/
def cexConstraints : ConstraintSet :=
  { var_constraints := fun i => if i = 0 then .FixedTotal 5 else .Free,
    expr_constraints := fun i =>
      if i = 0 then { locked := true, force_pct := fun f => if f = 0 then 1 else 0 }
      else { locked := false, force_pct := fun _ => 0 },
    transfer_mask := fullMask }

/-- Concrete cell state with every entry 1, for the idempotence witness. -/
def idemCell : CellState := fun _ _ => 1

/-- Concrete constraint set for the idempotence witness: variable 0 is
expression-locked with the uniform percentage mix and carries FixedTotal 5;
all other variables are free and unlocked. -/
def idemConstraints : ConstraintSet :=
  { var_constraints := fun i => if i = 0 then .FixedTotal 5 else .Free,
    expr_constraints := fun i =>
      if i = 0 then { locked := true, force_pct := fun _ => 1 / 4 }
      else { locked := false, force_pct := fun _ => 0 },
    transfer_mask := fullMask }

/-- Concrete 2 by 2 by 1 lattice used to exercise the index and coord code. -/
def exLat221 : Lattice := { size := (2, 2, 1), cells := List.replicate 4 zeroCell }

/-- Concrete 2 by 2 by 2 lattice used to exercise the neighbor code. -/
def exLat222 : Lattice := { size := (2, 2, 2), cells := List.replicate 8 zeroCell }

end Skel

namespace Lib

/-- Direction from lib.rs. -/
inductive Direction where
  | PosX | NegX | PosY | NegY | PosZ | NegZ
deriving DecidableEq, Repr

/-- Direction::ALL from lib.rs, in declaration order. -/
def Direction.ALL : List Direction := [.PosX, .NegX, .PosY, .NegY, .PosZ, .NegZ]

/-- Direction::offset from lib.rs. -/
def Direction.offset : Direction → Int × Int × Int
  | .PosX => (1, 0, 0)
  | .NegX => (-1, 0, 0)
  | .PosY => (0, 1, 0)
  | .NegY => (0, -1, 0)
  | .PosZ => (0, 0, 1)
  | .NegZ => (0, 0, -1)

/-- The discriminant of a Direction, the value of the Rust cast d as usize
used to index the six-entry flux arrays. -/
def Direction.toIdx : Direction → Fin 6
  | .PosX => 0
  | .NegX => 1
  | .PosY => 2
  | .NegY => 3
  | .PosZ => 4
  | .NegZ => 5

/-- Direction::ALL looked up at a flux-array position, the inverse of toIdx. -/
def Direction.fromIdx : Fin 6 → Direction
  | 0 => .PosX
  | 1 => .NegX
  | 2 => .PosY
  | 3 => .NegY
  | 4 => .PosZ
  | 5 => .NegZ

/-- EnergyGroupKind from lib.rs. -/
inductive EnergyGroupKind where
  | Light | Matter | Neutrino | OppositeMatter | OppositeLight
deriving DecidableEq, Repr

/-- Interaction from lib.rs. -/
inductive Interaction where
  | Electromagnetic | Strong | Weak | Gravitational | Expansion
deriving DecidableEq, Repr

/-- EnergyPacket from lib.rs. -/
structure EnergyPacket where
  energy : ℚ
deriving DecidableEq, Repr

/-- Subgroup from lib.rs. -/
structure Subgroup where
  interaction : Interaction
  packets : List EnergyPacket
deriving DecidableEq, Repr

/-- EnergyGroup from lib.rs. -/
structure EnergyGroup where
  kind : EnergyGroupKind
  total_energy : ℚ
  subgroups : List Subgroup
deriving DecidableEq, Repr

/-- Cell from lib.rs. -/
structure Cell where
  total_energy : ℚ
  groups : List EnergyGroup
deriving DecidableEq, Repr

/-- Lattice from lib.rs. -/
structure Lattice where
  size : Nat × Nat × Nat
  cells : List Cell
deriving DecidableEq, Repr

/-- FluxTensor from lib.rs: six directed flux magnitudes. -/
abbrev FluxTensor := Fin 6 → ℚ

/-- Random-number generation is consumed as an injected generator (section 1
of the specification treats it as external), so SmallRng is embedded as an
abstract sample stream with a cursor; random_range yields the next sample. -/
structure Rng where
  stream : Nat → ℚ
  pos : Nat

/-- Draw the next sample from the stream and advance the cursor. -/
def Rng.next (r : Rng) : ℚ × Rng := (r.stream r.pos, { r with pos := r.pos + 1 })

/-- Draw n consecutive samples, as the collect of n random_range calls in
random_partition does. -/
def randomSamples : Nat → Rng → List ℚ × Rng
  | 0, rng => ([], rng)
  | n + 1, rng =>
    let p := rng.next
    let q := randomSamples n p.2
    (p.1 :: q.1, q.2)

/-- random_partition from lib.rs lines 133-138: draw n samples, then rescale
each by total over their sum. -/
def random_partition (total : ℚ) (n : Nat) (rng : Rng) : List ℚ × Rng :=
  let p := randomSamples n rng
  let s := p.1.sum
  (p.1.map fun x => x / s * total, p.2)

/-- The interaction list chosen per group kind in init_group, lib.rs lines
141-147. -/
def groupInteractions : EnergyGroupKind → List Interaction
  | .Light => [.Electromagnetic]
  | .Matter => [.Strong, .Weak, .Gravitational]
  | .Neutrino => [.Weak, .Gravitational]
  | .OppositeMatter => [.Gravitational]
  | .OppositeLight => [.Expansion]

/-- init_group from lib.rs lines 140-156: partition the group energy over its
interactions, one single-packet subgroup per interaction. -/
def init_group (kind : EnergyGroupKind) (energy : ℚ) (rng : Rng) : EnergyGroup × Rng :=
  let interactions := groupInteractions kind
  let p := random_partition energy interactions.length rng
  ({ kind := kind, total_energy := energy,
     subgroups := (interactions.zip p.1).map fun q =>
       { interaction := q.1, packets := [{ energy := q.2 }] } }, p.2)

/-- The five group kinds listed in init_cell, lib.rs lines 159-165. -/
def kindsList : List EnergyGroupKind :=
  [.Light, .Matter, .Neutrino, .OppositeMatter, .OppositeLight]

/-- Sequential construction of the groups of one cell, threading the
generator exactly as the iterator in init_cell does. -/
def initGroups : List (EnergyGroupKind × ℚ) → Rng → List EnergyGroup × Rng
  | [], rng => ([], rng)
  | (k, e) :: rest, rng =>
    let p := init_group k e rng
    let q := initGroups rest p.2
    (p.1 :: q.1, q.2)

/-- init_cell from lib.rs lines 158-173: partition the cell energy over the
five kinds, then build each group. -/
def init_cell (energy : ℚ) (rng : Rng) : Cell × Rng :=
  let p := random_partition energy kindsList.length rng
  let q := initGroups (kindsList.zip p.1) p.2
  ({ total_energy := energy, groups := q.1 }, q.2)

/-- Sequential construction of the n cells of generate_lattice, threading the
generator across cells exactly as the Rust iterator does. -/
def initCells : Nat → ℚ → Rng → List Cell × Rng
  | 0, _, rng => ([], rng)
  | n + 1, per, rng =>
    let p := init_cell per rng
    let q := initCells n per p.2
    (p.1 :: q.1, q.2)

/-- generate_lattice from lib.rs lines 175-181, with the seeded SmallRng
abstracted into the given sample stream: n cells, each initialized with
energy total_energy / n from the shared sequential generator. -/
def generate_lattice (rng : Rng) (size : Nat × Nat × Nat) (total_energy : ℚ) : Lattice :=
  let n := size.1 * size.2.1 * size.2.2
  let per := total_energy / (n : ℚ)
  { size := size, cells := (initCells n per rng).1 }

/-- Lattice::index from lib.rs lines 114-117: x + y * sx + z * sx * sy. -/
def Lattice.index (l : Lattice) (x y z : Nat) : Nat :=
  x + y * l.size.1 + z * l.size.1 * l.size.2.1

/-- Lattice::in_bounds from lib.rs lines 119-124. -/
def Lattice.in_bounds (l : Lattice) (x y z : Int) : Bool :=
  decide (0 ≤ x) && decide (0 ≤ y) && decide (0 ≤ z) &&
    decide (x < (l.size.1 : Int)) && decide (y < (l.size.2.1 : Int)) &&
    decide (z < (l.size.2.2 : Int))

/-- Out-of-range cell reads are embedded with this default; simulate_tick
never reaches it on a lattice whose cell count matches its size product. -/
def defaultCell : Cell := { total_energy := 0, groups := [] }

/-- Look up a group of the given kind, the find used by the tensors. -/
def findGroup (c : Cell) (k : EnergyGroupKind) : Option EnergyGroup :=
  c.groups.find? fun g => decide (g.kind = k)

/-- electromagnetic_tensor from lib.rs lines 189-199: five percent of the
Light group energy, spread over the four lateral directions. -/
def electromagnetic_tensor (cell : Cell) : FluxTensor :=
  match findGroup cell .Light with
  | some g => fun i => if i.val ≤ 3 then g.total_energy * (5 / 100) / 4 else 0
  | none => fun _ => 0

/-- gravitational_tensor from lib.rs lines 201-209: one percent of each
positive energy difference toward a richer neighbor, per direction. -/
def gravitational_tensor (cell : Cell) (neighbors : List (Direction × Cell)) : FluxTensor :=
  neighbors.foldl
    (fun t dn =>
      if cell.total_energy < dn.2.total_energy then
        Function.update t dn.1.toIdx ((dn.2.total_energy - cell.total_energy) * (1 / 100))
      else t)
    fun _ => 0

/-- expansion_tensor from lib.rs lines 211-218: three percent of the
OppositeLight group energy, spread over all six directions. -/
def expansion_tensor (cell : Cell) : FluxTensor :=
  match findGroup cell .OppositeLight with
  | some g => fun _ => g.total_energy * (3 / 100) / 6
  | none => fun _ => 0

/-- Replace every packet of a subgroup by the equalized energy, the inner
loop of strong_force. -/
def setPackets (per : ℚ) (sg : Subgroup) : Subgroup :=
  { sg with packets := sg.packets.map fun _ => { energy := per } }

/-- Equalize the packets of the first Matter group, the find of strong_force
from lib.rs lines 226-233. -/
def strongGroups : List EnergyGroup → List EnergyGroup
  | [] => []
  | g :: gs =>
    if g.kind = .Matter then
      (let total := (g.subgroups.map fun sg => (sg.packets.map EnergyPacket.energy).sum).sum
       let count := max ((g.subgroups.map fun sg => sg.packets.length).sum) 1
       { g with subgroups := g.subgroups.map (setPackets (total / (count : ℚ))) }) :: gs
    else g :: strongGroups gs

/-- strong_force from lib.rs lines 226-233. -/
def strong_force (cell : Cell) : Cell := { cell with groups := strongGroups cell.groups }

/-- Scale the packets of one subgroup by a fresh sample when its interaction
is Weak, the inner step of weak_force. -/
def weakSubgroups : List Subgroup → Rng → List Subgroup × Rng
  | [], rng => ([], rng)
  | sg :: sgs, rng =>
    if sg.interaction = .Weak then
      let p := rng.next
      let q := weakSubgroups sgs p.2
      (({ sg with packets := sg.packets.map fun pk => { energy := pk.energy * p.1 } }) :: q.1,
        q.2)
    else
      let q := weakSubgroups sgs rng
      (sg :: q.1, q.2)

/-- The group-level loop of weak_force. -/
def weakGroups : List EnergyGroup → Rng → List EnergyGroup × Rng
  | [], rng => ([], rng)
  | g :: gs, rng =>
    let p := weakSubgroups g.subgroups rng
    let q := weakGroups gs p.2
    (({ g with subgroups := p.1 }) :: q.1, q.2)

/-- weak_force from lib.rs lines 235-244. -/
def weak_force (cell : Cell) (rng : Rng) : Cell × Rng :=
  let p := weakGroups cell.groups rng
  ({ cell with groups := p.1 }, p.2)

/-- Coordinates of the cell at a flat index, as decoded at the top of the
simulate_tick worker closure. -/
def cellCoord (l : Lattice) (idx : Nat) : Nat × Nat × Nat :=
  (idx % l.size.1, (idx / l.size.1) % l.size.2.1, idx / (l.size.1 * l.size.2.1))

/-- The neighbor list computed inside simulate_tick: each in-bounds axis
neighbor with its direction. -/
def cellNeighbors (l : Lattice) (idx : Nat) : List (Direction × Cell) :=
  let c := cellCoord l idx
  Direction.ALL.filterMap fun d =>
    let o := d.offset
    let nx := (c.1 : Int) + o.1
    let ny := (c.2.1 : Int) + o.2.1
    let nz := (c.2.2 : Int) + o.2.2
    if l.in_bounds nx ny nz then
      some (d, l.cells.getD (l.index nx.toNat ny.toNat nz.toNat) defaultCell)
    else none

/-- The per-cell worker of simulate_tick, lib.rs lines 256-314: compute the
three tensors, emit a paired (neighbor, +e) and (self, -e) entry for every
positive in-bounds flux, run the intra-cell forces on a clone that is then
discarded, and append the (self, 0) dummy entry. -/
def cellFlux (l : Lattice) (gen : Nat → Rng) (seed : Nat) (idx : Nat) : List (Nat × ℚ) :=
  let c := cellCoord l idx
  let cell := l.cells.getD idx defaultCell
  let neighbors := cellNeighbors l idx
  let tensors := [electromagnetic_tensor cell, gravitational_tensor cell neighbors,
    expansion_tensor cell]
  let _discarded := weak_force (strong_force cell) (gen (seed + idx))
  (tensors.flatMap fun t =>
    (List.finRange 6).flatMap fun i =>
      let e := t i
      let o := (Direction.fromIdx i).offset
      let nx := (c.1 : Int) + o.1
      let ny := (c.2.1 : Int) + o.2.1
      let nz := (c.2.2 : Int) + o.2.2
      if 0 < e ∧ l.in_bounds nx ny nz = true then
        [(l.index nx.toNat ny.toNat nz.toNat, e), (idx, -e)]
      else []) ++ [(idx, 0)]

/-- One accumulation step of the delta pass: deltas[idx] += delta. -/
def applyDelta (deltas : List ℚ) (p : Nat × ℚ) : List ℚ :=
  deltas.set p.1 (deltas.getD p.1 0 + p.2)

/-- The flattened delta array of simulate_tick, lib.rs lines 316-322, with
the per-cell worker results consumed in the given order. -/
def tickDeltas (l : Lattice) (gen : Nat → Rng) (seed : Nat) (order : List Nat) : List ℚ :=
  (order.flatMap fun idx => cellFlux l gen seed idx).foldl applyDelta
    (List.replicate l.cells.length 0)

/-- The final pass of simulate_tick, lib.rs lines 324-327: add each delta to
the total energy of its cell. -/
def applyDeltas (l : Lattice) (deltas : List ℚ) : Lattice :=
  let f : Cell → ℚ → Cell := fun c d => { c with total_energy := c.total_energy + d }
  { l with cells := l.cells.zipWith f deltas }

/-- simulate_tick from lib.rs lines 252-328, with each per-cell generator
seeded from the base seed plus the cell index through the abstract stream
family gen. -/
def simulate_tick (l : Lattice) (gen : Nat → Rng) (seed : Nat) : Lattice :=
  applyDeltas l (tickDeltas l gen seed (List.range l.cells.length))

/-- simulate_tick with the data-parallel fan-out made explicit: the per-cell
worker results are produced and consumed in an arbitrary worker completion
order instead of ascending index order. -/
def simulate_tick_sched (l : Lattice) (gen : Nat → Rng) (seed : Nat)
    (order : List Nat) : Lattice :=
  applyDeltas l (tickDeltas l gen seed order)

/-- Constant-stream generator family used by the concrete witnesses. -/
def exGen : Nat → Rng := fun _ => { stream := fun _ => 1, pos := 0 }

/-- Concrete subgroup of the witness lattice: one ten-unit packet. -/
def exSubgroup : Subgroup := { interaction := .Electromagnetic, packets := [{ energy := 10 }] }

/-- Concrete Light group of the witness lattice. -/
def exGroup : EnergyGroup := { kind := .Light, total_energy := 10, subgroups := [exSubgroup] }

/-- Concrete cell of the witness lattice holding ten units of Light energy. -/
def exCell0 : Cell := { total_energy := 10, groups := [exGroup] }

/-- Concrete empty cell of the witness lattice. -/
def exCell1 : Cell := { total_energy := 0, groups := [] }

/-- Concrete 2 by 1 by 1 lattice: ten units of Light energy in cell 0, an
empty cell at index 1. -/
def exLibLat : Lattice := { size := (2, 1, 1), cells := [exCell0, exCell1] }

end Lib

/-- C2: the claim states that Lattice::coord inverts Lattice::index on
in-bounds coordinates.  On the 2 by 2 by 1 lattice the in-bounds coordinate
(1,0,0) has index 1, and coord maps 1 back to (0,0,1), which differs from
(1,0,0) and is not even in bounds; index applied to coord 1 gives 16, not 1.
The code contradicts its own conversion comments and its own allocation:
index uses the full cell count as the row stride. -/
theorem coord_index_not_inverse :
    Skel.exLat221.in_bounds ⟨1, 0, 0⟩ = true ∧
    Skel.exLat221.index ⟨1, 0, 0⟩ = some 1 ∧
    Skel.exLat221.coord 1 = some ⟨0, 0, 1⟩ ∧
    (⟨0, 0, 1⟩ : Skel.LatticeCoord) ≠ ⟨1, 0, 0⟩ ∧
    Skel.exLat221.in_bounds ⟨0, 0, 1⟩ = false ∧
    Skel.exLat221.index ⟨0, 0, 1⟩ = some 16 := by
  refine ⟨by decide, by decide, by decide, by decide, by decide, by decide⟩

/-- C3: the claim states that neighbors_6 returns only in-bounds coordinates
and never drops an existing neighbor.  On the 2 by 2 by 2 lattice the code
returns, for the in-bounds coordinate (1,1,1), a list containing the
out-of-bounds coordinates (2,1,1), (1,2,1) and (1,1,2); and for (0,0,0) it
returns no list at all, although (1,0,0), (0,1,0) and (0,0,1) are in-bounds
neighbors, because the checked subtraction 0 - 1 aborts the whole call. -/
theorem neighbors_6_out_of_range :
    Skel.exLat222.neighbors_6 ⟨1, 1, 1⟩ =
      some [⟨2, 1, 1⟩, ⟨0, 1, 1⟩, ⟨1, 2, 1⟩, ⟨1, 0, 1⟩, ⟨1, 1, 2⟩, ⟨1, 1, 0⟩] ∧
    Skel.exLat222.in_bounds ⟨2, 1, 1⟩ = false ∧
    Skel.exLat222.neighbors_6 ⟨0, 0, 0⟩ = none ∧
    Skel.exLat222.in_bounds ⟨1, 0, 0⟩ = true := by
  refine ⟨by decide, by decide, by decide, by decide⟩

/-- C6: the claim states that the flat cell index of an in-bounds coordinate
equals x + y*nx + z*nx*ny, a bijection onto the allocated range.  The
lattice.rs code allocates nx*ny*nz cells for size (2,2,1), namely 4, yet
assigns the in-bounds coordinate (1,1,0) the index 5: the computed index is
neither the row-major value 3 nor inside the allocated range.  (The sibling
index in lib.rs line 114 is literally x + y*sx + z*sx*sy.) -/
theorem index_not_row_major :
    (Skel.Lattice.new (2, 2, 1)).map (fun l => l.cells.length) = some 4 ∧
    Skel.exLat221.in_bounds ⟨1, 1, 0⟩ = true ∧
    Skel.exLat221.index ⟨1, 1, 0⟩ = some 5 ∧
    (5 : Nat) ≠ 1 + 1 * 2 + 0 * 2 * 2 ∧
    ¬ (5 : Nat) < 2 * 2 * 1 := by
  refine ⟨by decide, by decide, by decide, by decide, by decide⟩

/-- C7: Lattice::new returns a lattice of exactly size.x * size.y * size.z
cells, every energy entry zero, and fails exactly when the widened product
overflows the u128 index domain, for any usize dimensions. -/
theorem new_zero_cells_iff_no_overflow (s : Nat × Nat × Nat)
    (h0 : s.1 < Skel.U64SIZE) (h1 : s.2.1 < Skel.U64SIZE) (_h2 : s.2.2 < Skel.U64SIZE) :
    (Skel.Lattice.new s = none ↔ Skel.U128SIZE ≤ s.1 * s.2.1 * s.2.2) ∧
    ∀ l, Skel.Lattice.new s = some l →
      l.cells.length = s.1 * s.2.1 * s.2.2 ∧ ∀ c ∈ l.cells, c = Skel.zeroCell := by
  have hfirst : s.1 * s.2.1 < Skel.U128SIZE := by
    have hle : s.1 * s.2.1 ≤ (Skel.U64SIZE - 1) * (Skel.U64SIZE - 1) :=
      Nat.mul_le_mul (by omega) (by omega)
    have hlt : (Skel.U64SIZE - 1) * (Skel.U64SIZE - 1) < Skel.U128SIZE := by
      norm_num [Skel.U64SIZE, Skel.U128SIZE]
    omega
  unfold Skel.Lattice.new Skel.Lattice.cell_count_size Skel.checkedMul128
  rw [if_pos hfirst]
  by_cases hsec : s.1 * s.2.1 * s.2.2 < Skel.U128SIZE
  · rw [Option.some_bind, if_pos hsec]
    constructor
    · simp only [Option.map_some']
      constructor
      · intro h; exact absurd h (by simp)
      · intro h; omega
    · intro l hl
      simp only [Option.map_some', Option.some_inj] at hl
      subst hl
      refine ⟨List.length_replicate _ _, ?_⟩
      intro c hc
      exact List.eq_of_mem_replicate hc
  · rw [Option.some_bind, if_neg hsec]
    refine ⟨?_, ?_⟩
    · constructor
      · intro _; omega
      · intro _; rfl
    · intro l hl
      simp at hl

/-- C7 witness: size (2,3,4) is within the usize domain, its product does not
overflow, and new allocates exactly 24 zero cells. -/
theorem new_zero_cells_iff_no_overflow_witness :
    (Skel.Lattice.new (2, 3, 4) = none ↔ Skel.U128SIZE ≤ 2 * 3 * 4) ∧
    (Skel.Lattice.new (2, 3, 4)).map (fun l => l.cells.length) = some 24 := by
  refine ⟨(new_zero_cells_iff_no_overflow (2, 3, 4) (by decide) (by decide) (by decide)).1,
    by decide⟩

/-- C1: exchange_exact preserves the sum of the two cells' energies at the
exchanged channel exactly, for every coupling and dt, and on non-negative
inputs neither output energy at that channel is negative. -/
theorem exchange_exact_conserves (a b : Skel.CellState) (i : Fin Skel.VARS)
    (f : Fin Skel.FORCES) (coupling dt : ℚ)
    (ha : 0 ≤ a i f) (hb : 0 ≤ b i f) :
    (Skel.exchange_exact a b i f coupling dt).1 i f +
      (Skel.exchange_exact a b i f coupling dt).2 i f = a i f + b i f ∧
    0 ≤ (Skel.exchange_exact a b i f coupling dt).1 i f ∧
    0 ≤ (Skel.exchange_exact a b i f coupling dt).2 i f := by
  have e1 : (Skel.exchange_exact a b i f coupling dt).1 i f =
      a i f + max (-(a i f)) (min (coupling * dt * (b i f - a i f)) (b i f)) := by
    simp [Skel.exchange_exact]
  have e2 : (Skel.exchange_exact a b i f coupling dt).2 i f =
      b i f - max (-(a i f)) (min (coupling * dt * (b i f - a i f)) (b i f)) := by
    simp [Skel.exchange_exact]
  rw [e1, e2]
  refine ⟨by ring, ?_, ?_⟩
  · have h1 : -(a i f) ≤ max (-(a i f)) (min (coupling * dt * (b i f - a i f)) (b i f)) :=
      le_max_left _ _
    linarith
  · have h2 : max (-(a i f)) (min (coupling * dt * (b i f - a i f)) (b i f)) ≤ b i f :=
      max_le (by linarith) (min_le_right _ _)
    linarith

/-- C1 witness: at the concrete channel pair with energies 2 and 0, coupling 1
and dt 1, the exchanged pair conserves the channel sum and stays
non-negative. -/
theorem exchange_exact_conserves_witness :
    ((Skel.exchange_exact (fun _ _ => 2) (fun _ _ => 0) 0 0 1 1).1 0 0 +
      (Skel.exchange_exact (fun _ _ => 2) (fun _ _ => 0) 0 0 1 1).2 0 0 =
        (fun _ _ => (2 : ℚ)) 0 0 + (fun _ _ => (0 : ℚ)) 0 0) ∧
    0 ≤ (Skel.exchange_exact (fun _ _ => 2) (fun _ _ => 0) 0 0 1 1).1 0 0 ∧
    0 ≤ (Skel.exchange_exact (fun _ _ => 2) (fun _ _ => 0) 0 0 1 1).2 0 0 :=
  exchange_exact_conserves (fun _ _ => 2) (fun _ _ => 0) 0 0 1 1 (by norm_num) (by norm_num)

namespace Lib

/-- One delta accumulation step preserves the length of the delta array. -/
theorem applyDelta_length (deltas : List ℚ) (p : Nat × ℚ) :
    (applyDelta deltas p).length = deltas.length := by
  simp [applyDelta]

/-- The whole delta accumulation pass preserves the length of the delta
array. -/
theorem foldl_applyDelta_length (pairs : List (Nat × ℚ)) :
    ∀ deltas : List ℚ, (pairs.foldl applyDelta deltas).length = deltas.length := by
  induction pairs with
  | nil => intro deltas; rfl
  | cons p rest ih =>
    intro deltas
    rw [List.foldl_cons, ih, applyDelta_length]

/-- Reading the delta array at the freshly written position. -/
theorem getD_set_self (l : List ℚ) (i : Nat) (a : ℚ) (h : i < l.length) :
    (l.set i a).getD i 0 = a := by
  simp [List.getD_eq_getElem?_getD, List.getElem?_set_self', h]

/-- An in-range delta accumulation adds its value to the array sum. -/
theorem applyDelta_sum (deltas : List ℚ) (p : Nat × ℚ) (h : p.1 < deltas.length) :
    (applyDelta deltas p).sum = deltas.sum + p.2 := by
  obtain ⟨i, v⟩ := p
  simp only [applyDelta] at h ⊢
  revert h
  induction deltas generalizing i with
  | nil => intro h; simp at h
  | cons d ds ih =>
    intro h
    cases i with
    | zero =>
      rw [List.getD_cons_zero, List.set_cons_zero, List.sum_cons, List.sum_cons]
      ring
    | succ j =>
      have hj : j < ds.length := by simpa using h
      rw [List.set_cons_succ, List.getD_cons_succ, List.sum_cons, List.sum_cons, ih j hj]
      ring

/-- The delta accumulation pass adds the sum of all in-range flux values to
the array sum. -/
theorem foldl_applyDelta_sum (pairs : List (Nat × ℚ)) :
    ∀ deltas : List ℚ, (∀ p ∈ pairs, p.1 < deltas.length) →
      (pairs.foldl applyDelta deltas).sum = deltas.sum + (pairs.map Prod.snd).sum := by
  induction pairs with
  | nil => intro deltas _; simp
  | cons p rest ih =>
    intro deltas hall
    rw [List.foldl_cons]
    have hp : p.1 < deltas.length := hall p (by simp)
    have hrest : ∀ q ∈ rest, q.1 < (applyDelta deltas p).length := by
      intro q hq
      rw [applyDelta_length]
      exact hall q (by simp [hq])
    rw [ih (applyDelta deltas p) hrest, applyDelta_sum deltas p hp]
    simp
    ring

/-- Flux lists whose per-element value sums vanish have a vanishing total
value sum. -/
theorem flatMap_snd_sum_zero {α : Type} (L : List α) (g : α → List (Nat × ℚ))
    (h : ∀ x ∈ L, ((g x).map Prod.snd).sum = 0) :
    ((L.flatMap g).map Prod.snd).sum = 0 := by
  induction L with
  | nil => simp
  | cons x rest ih =>
    rw [List.flatMap_cons, List.map_append, List.sum_append, h x (by simp),
      ih (fun y hy => h y (by simp [hy]))]
    simp

/-- Every per-cell worker flux list has flux values summing to zero exactly:
each emitted (neighbor, +e) entry is paired with a (self, -e) entry, and the
dummy entry carries zero. -/
theorem cellFlux_snd_sum (l : Lattice) (gen : Nat → Rng) (seed : Nat) (idx : Nat) :
    ((cellFlux l gen seed idx).map Prod.snd).sum = 0 := by
  unfold cellFlux
  rw [List.map_append, List.sum_append]
  rw [flatMap_snd_sum_zero _ _ ?_]
  · simp
  · intro t _
    rw [flatMap_snd_sum_zero _ _ ?_]
    intro i _
    by_cases hc : 0 < t i ∧ l.in_bounds ((((cellCoord l idx).1 : Int) +
        ((Direction.fromIdx i).offset).1))
        (((cellCoord l idx).2.1 : Int) + ((Direction.fromIdx i).offset).2.1)
        (((cellCoord l idx).2.2 : Int) + ((Direction.fromIdx i).offset).2.2) = true
    · rw [if_pos hc]
      simp
    · rw [if_neg hc]
      simp

/-- The row-major index of lib.rs maps in-bounds integer coordinates below
the size product. -/
theorem index_lt_of_in_bounds (l : Lattice) (x y z : Int)
    (hb : l.in_bounds x y z = true) :
    l.index x.toNat y.toNat z.toNat < l.size.1 * l.size.2.1 * l.size.2.2 := by
  simp only [Lattice.in_bounds, Bool.and_eq_true, decide_eq_true_eq] at hb
  obtain ⟨⟨⟨⟨⟨hx0, hy0⟩, hz0⟩, hx⟩, hy⟩, hz⟩ := hb
  unfold Lattice.index
  have hxn : x.toNat < l.size.1 := by omega
  have hyn : y.toNat < l.size.2.1 := by omega
  have hzn : z.toNat < l.size.2.2 := by omega
  set a := x.toNat
  set b := y.toNat
  set c := z.toNat
  set sx := l.size.1
  set sy := l.size.2.1
  set sz := l.size.2.2
  have h1 : (1 + b) * sx ≤ sy * sx := Nat.mul_le_mul_right sx (by omega)
  have h2 : (1 + c) * (sx * sy) ≤ sz * (sx * sy) := Nat.mul_le_mul_right (sx * sy) (by omega)
  have e1 : (1 + b) * sx = sx + b * sx := by ring
  have e2 : (1 + c) * (sx * sy) = sx * sy + c * (sx * sy) := by ring
  have e3 : sy * sx = sx * sy := by ring
  have e4 : sz * (sx * sy) = sx * sy * sz := by ring
  have e5 : c * sx * sy = c * (sx * sy) := by ring
  rw [e1] at h1
  rw [e2] at h2
  linarith

/-- Every index mentioned in a per-cell worker flux list is inside the delta
array of a lattice whose cell count matches its size product. -/
theorem cellFlux_fst_lt (l : Lattice) (gen : Nat → Rng) (seed : Nat) (idx : Nat)
    (h : l.cells.length = l.size.1 * l.size.2.1 * l.size.2.2)
    (hidx : idx < l.cells.length) :
    ∀ p ∈ cellFlux l gen seed idx, p.1 < l.cells.length := by
  intro p hp
  unfold cellFlux at hp
  rw [List.mem_append] at hp
  rcases hp with hp | hp
  · rw [List.mem_flatMap] at hp
    obtain ⟨t, _, hp⟩ := hp
    rw [List.mem_flatMap] at hp
    obtain ⟨i, _, hp⟩ := hp
    by_cases hc : 0 < t i ∧ l.in_bounds ((((cellCoord l idx).1 : Int) +
        ((Direction.fromIdx i).offset).1))
        (((cellCoord l idx).2.1 : Int) + ((Direction.fromIdx i).offset).2.1)
        (((cellCoord l idx).2.2 : Int) + ((Direction.fromIdx i).offset).2.2) = true
    · rw [if_pos hc] at hp
      simp only [List.mem_cons, List.not_mem_nil, or_false] at hp
      rcases hp with hp | hp
      · rw [hp]
        rw [h]
        exact index_lt_of_in_bounds l _ _ _ hc.2
      · rw [hp]
        exact hidx
    · rw [if_neg hc] at hp
      simp at hp
  · simp only [List.mem_singleton] at hp
    rw [hp]
    exact hidx

/-- The delta array always has one entry per cell. -/
theorem tickDeltas_length (l : Lattice) (gen : Nat → Rng) (seed : Nat) (order : List Nat) :
    (tickDeltas l gen seed order).length = l.cells.length := by
  unfold tickDeltas
  rw [foldl_applyDelta_length, List.length_replicate]

/-- Adding a delta array entrywise to the cell totals adds its sum to the
total of the lattice. -/
theorem zipWith_total_sum (f : Cell → ℚ → Cell)
    (hf : ∀ c d, (f c d).total_energy = c.total_energy + d) :
    ∀ (cs : List Cell) (ds : List ℚ), ds.length = cs.length →
      ((cs.zipWith f ds).map Cell.total_energy).sum =
        (cs.map Cell.total_energy).sum + ds.sum := by
  intro cs
  induction cs with
  | nil =>
    intro ds h
    have hnil : ds = [] := List.eq_nil_of_length_eq_zero h
    subst hnil
    simp
  | cons c rest ih =>
    intro ds h
    cases ds with
    | nil => simp at h
    | cons d dtail =>
      have htail : dtail.length = rest.length := by simpa using h
      simp only [List.zipWith_cons_cons, List.map_cons, List.sum_cons, ih dtail htail, hf]
      ring

/-- Two delta accumulation steps commute: they target list positions with a
commutative addition. -/
theorem applyDelta_comm (z : List ℚ) (p q : Nat × ℚ) :
    applyDelta (applyDelta z p) q = applyDelta (applyDelta z q) p := by
  obtain ⟨i, v⟩ := p
  obtain ⟨j, w⟩ := q
  by_cases hij : i = j
  · subst hij
    by_cases hi : i < z.length
    · simp only [applyDelta]
      rw [getD_set_self z i _ hi, getD_set_self z i _ hi, List.set_set, List.set_set]
      congr 1
      ring
    · have hlen : z.length ≤ i := by omega
      simp only [applyDelta]
      simp only [List.set_eq_of_length_le hlen]
  · have hgj : (z.set i (z.getD i 0 + v)).getD j 0 = z.getD j 0 := by
      simp [List.getD_eq_getElem?_getD, List.getElem?_set_ne hij]
    have hgi : (z.set j (z.getD j 0 + w)).getD i 0 = z.getD i 0 := by
      simp [List.getD_eq_getElem?_getD, List.getElem?_set_ne (Ne.symm hij)]
    simp only [applyDelta]
    rw [hgj, hgi, z.set_comm _ _ hij]

/-- Adding a delta array entrywise to the cell totals leaves every group
structure unchanged. -/
theorem zipWith_total_groups (f : Cell → ℚ → Cell)
    (hf : ∀ c d, (f c d).groups = c.groups) :
    ∀ (cs : List Cell) (ds : List ℚ), ds.length = cs.length →
      (cs.zipWith f ds).map Cell.groups = cs.map Cell.groups := by
  intro cs
  induction cs with
  | nil => intro ds h; simp
  | cons c rest ih =>
    intro ds h
    cases ds with
    | nil => simp at h
    | cons d dtail =>
      have htail : dtail.length = rest.length := by simpa using h
      simp only [List.zipWith_cons_cons, List.map_cons, ih dtail htail, hf]

end Lib

/-- C4: on a lattice whose cell count matches its size product, the per-cell
deltas accumulated by simulate_tick sum to zero exactly, so the lattice-wide
sum of total_energy is unchanged by simulate_tick in exact arithmetic, for
every seed, generator family and lattice. -/
theorem simulate_tick_conserves_total (l : Lib.Lattice) (gen : Nat → Lib.Rng) (seed : Nat)
    (h : l.cells.length = l.size.1 * l.size.2.1 * l.size.2.2) :
    (Lib.tickDeltas l gen seed (List.range l.cells.length)).sum = 0 ∧
    ((Lib.simulate_tick l gen seed).cells.map Lib.Cell.total_energy).sum =
      (l.cells.map Lib.Cell.total_energy).sum := by
  have hall : ∀ p ∈ (List.range l.cells.length).flatMap (Lib.cellFlux l gen seed),
      p.1 < (List.replicate l.cells.length (0 : ℚ)).length := by
    intro p hp
    rw [List.length_replicate]
    obtain ⟨idx, hidx, hmem⟩ := List.mem_flatMap.mp hp
    exact Lib.cellFlux_fst_lt l gen seed idx h (List.mem_range.mp hidx) p hmem
  have hzero : (((List.range l.cells.length).flatMap
      (Lib.cellFlux l gen seed)).map Prod.snd).sum = 0 :=
    Lib.flatMap_snd_sum_zero _ _ (fun idx _ => Lib.cellFlux_snd_sum l gen seed idx)
  have hdelta : (Lib.tickDeltas l gen seed (List.range l.cells.length)).sum = 0 := by
    unfold Lib.tickDeltas
    rw [Lib.foldl_applyDelta_sum _ _ hall, hzero]
    simp
  refine ⟨hdelta, ?_⟩
  unfold Lib.simulate_tick Lib.applyDeltas
  have hlen : (Lib.tickDeltas l gen seed (List.range l.cells.length)).length =
      l.cells.length := Lib.tickDeltas_length l gen seed _
  rw [Lib.zipWith_total_sum _ (fun c d => rfl) l.cells _ hlen, hdelta, add_zero]

/-- C4 witness: on the concrete two-cell lattice the lattice-wide energy sum
is unchanged by simulate_tick, and that sum is ten. -/
theorem simulate_tick_conserves_total_witness :
    ((Lib.simulate_tick Lib.exLibLat Lib.exGen 7).cells.map Lib.Cell.total_energy).sum =
      (Lib.exLibLat.cells.map Lib.Cell.total_energy).sum ∧
    (Lib.exLibLat.cells.map Lib.Cell.total_energy).sum = 10 := by
  refine ⟨(simulate_tick_conserves_total Lib.exLibLat Lib.exGen 7 rfl).2, ?_⟩
  norm_num [Lib.exLibLat, Lib.exCell0, Lib.exCell1]

/-- C8: simulate_tick is deterministic and scheduling-independent: the
per-cell generator is derived from the base seed plus the cell index alone,
and accumulating the per-cell worker results in any worker completion order
produces the same lattice as ascending index order. -/
theorem simulate_tick_schedule_independent (l : Lib.Lattice) (gen : Nat → Lib.Rng)
    (seed : Nat) (order : List Nat) (h : order.Perm (List.range l.cells.length)) :
    Lib.simulate_tick_sched l gen seed order = Lib.simulate_tick l gen seed := by
  unfold Lib.simulate_tick_sched Lib.simulate_tick Lib.tickDeltas
  congr 1
  exact (h.flatMap_right (Lib.cellFlux l gen seed)).foldl_eq'
    (fun x _ y _ z => Lib.applyDelta_comm z x y) _

/-- C8 witness: on the concrete two-cell lattice, processing the cells in the
reversed order [1, 0] yields exactly the lattice produced in index order. -/
theorem simulate_tick_schedule_independent_witness :
    Lib.simulate_tick_sched Lib.exLibLat Lib.exGen 7 [1, 0] =
      Lib.simulate_tick Lib.exLibLat Lib.exGen 7 :=
  simulate_tick_schedule_independent Lib.exLibLat Lib.exGen 7 [1, 0] (by decide)

/-- C9: simulate_tick only touches total_energy: the size and the full group,
subgroup and packet structure of every cell are unchanged, because the
strong_force and weak_force updates are applied to a discarded clone. -/
theorem simulate_tick_frame (l : Lib.Lattice) (gen : Nat → Lib.Rng) (seed : Nat) :
    (Lib.simulate_tick l gen seed).size = l.size ∧
    (Lib.simulate_tick l gen seed).cells.map Lib.Cell.groups = l.cells.map Lib.Cell.groups := by
  constructor
  · rfl
  · simp only [Lib.simulate_tick, Lib.applyDeltas]
    exact Lib.zipWith_total_groups
      (fun c d => { c with total_energy := c.total_energy + d }) (fun c d => rfl)
      l.cells _ (Lib.tickDeltas_length l gen seed _)

namespace Lib

/-- Drawing samples never changes the underlying stream. -/
theorem randomSamples_stream (n : Nat) :
    ∀ rng : Rng, ((randomSamples n rng).2).stream = rng.stream := by
  induction n with
  | zero => intro rng; rfl
  | succ m ih => intro rng; exact ih rng.next.2

/-- Drawing n samples yields n samples. -/
theorem randomSamples_length (n : Nat) :
    ∀ rng : Rng, ((randomSamples n rng).1).length = n := by
  induction n with
  | zero => intro rng; rfl
  | succ m ih =>
    intro rng
    show (rng.next.1 :: (randomSamples m rng.next.2).1).length = m + 1
    rw [List.length_cons, ih rng.next.2]

/-- Every drawn sample respects the bounds satisfied by the whole stream. -/
theorem randomSamples_bounds (lo hi : ℚ) (n : Nat) :
    ∀ rng : Rng, (∀ k, lo ≤ rng.stream k ∧ rng.stream k < hi) →
      ∀ x ∈ (randomSamples n rng).1, lo ≤ x ∧ x < hi := by
  induction n with
  | zero => intro rng _ x hx; simp [randomSamples] at hx
  | succ m ih =>
    intro rng hs x hx
    have hx2 : x ∈ rng.next.1 :: (randomSamples m rng.next.2).1 := hx
    rw [List.mem_cons] at hx2
    rcases hx2 with hx2 | hx2
    · rw [hx2]; exact hs rng.pos
    · exact ih rng.next.2 (fun k => hs k) x hx2

/-- Rescaling a sample list to a target total distributes over the sum. -/
theorem sum_map_div_mul (v : List ℚ) (s t : ℚ) :
    (v.map fun x => x / s * t).sum = v.sum / s * t := by
  induction v with
  | nil => simp
  | cons x rest ih =>
    rw [List.map_cons, List.sum_cons, List.sum_cons, ih]
    ring

/-- random_partition returns a list summing exactly to the requested total
when the drawn samples have nonzero sum. -/
theorem random_partition_sum (total : ℚ) (n : Nat) (rng : Rng)
    (h : ((randomSamples n rng).1).sum ≠ 0) :
    ((random_partition total n rng).1).sum = total := by
  unfold random_partition
  rw [sum_map_div_mul, div_self h, one_mul]

/-- random_partition preserves the sample list length. -/
theorem random_partition_length (total : ℚ) (n : Nat) (rng : Rng) :
    ((random_partition total n rng).1).length = n := by
  unfold random_partition
  rw [List.length_map, randomSamples_length]

/-- random_partition never changes the underlying stream. -/
theorem random_partition_stream (total : ℚ) (n : Nat) (rng : Rng) :
    ((random_partition total n rng).2).stream = rng.stream := by
  unfold random_partition
  exact randomSamples_stream n rng

/-- init_group records exactly the requested group energy. -/
theorem init_group_total (kind : EnergyGroupKind) (energy : ℚ) (rng : Rng) :
    ((init_group kind energy rng).1).total_energy = energy := rfl


/-- init_group never changes the underlying stream. -/
theorem init_group_stream (kind : EnergyGroupKind) (energy : ℚ) (rng : Rng) :
    ((init_group kind energy rng).2).stream = rng.stream := by
  show ((random_partition energy (groupInteractions kind).length rng).2).stream = rng.stream
  exact random_partition_stream _ _ _

/-- The sequentially built groups carry exactly the requested energies. -/
theorem initGroups_totals (pairs : List (EnergyGroupKind × ℚ)) :
    ∀ rng : Rng, ((initGroups pairs rng).1).map EnergyGroup.total_energy =
      pairs.map Prod.snd := by
  induction pairs with
  | nil => intro rng; rfl
  | cons p rest ih =>
    intro rng
    obtain ⟨k, e⟩ := p
    show (init_group k e rng).1.total_energy ::
        ((initGroups rest (init_group k e rng).2).1.map EnergyGroup.total_energy) = _
    rw [init_group_total, ih]
    rfl

/-- The sequential group construction builds one group per pair. -/
theorem initGroups_length (pairs : List (EnergyGroupKind × ℚ)) :
    ∀ rng : Rng, ((initGroups pairs rng).1).length = pairs.length := by
  induction pairs with
  | nil => intro rng; rfl
  | cons p rest ih =>
    intro rng
    obtain ⟨k, e⟩ := p
    show ((init_group k e rng).1 :: (initGroups rest (init_group k e rng).2).1).length =
      rest.length + 1
    rw [List.length_cons, ih]

/-- The sequential group construction never changes the underlying stream. -/
theorem initGroups_stream (pairs : List (EnergyGroupKind × ℚ)) :
    ∀ rng : Rng, ((initGroups pairs rng).2).stream = rng.stream := by
  induction pairs with
  | nil => intro rng; rfl
  | cons p rest ih =>
    intro rng
    obtain ⟨k, e⟩ := p
    show ((initGroups rest (init_group k e rng).2).2).stream = rng.stream
    rw [ih, init_group_stream]

/-- init_cell records exactly the requested cell energy. -/
theorem init_cell_total (energy : ℚ) (rng : Rng) :
    ((init_cell energy rng).1).total_energy = energy := rfl

/-- init_cell never changes the underlying stream. -/
theorem init_cell_stream (energy : ℚ) (rng : Rng) :
    ((init_cell energy rng).2).stream = rng.stream := by
  show ((initGroups (kindsList.zip (random_partition energy kindsList.length rng).1)
      (random_partition energy kindsList.length rng).2).2).stream = rng.stream
  rw [initGroups_stream, random_partition_stream]

/-- init_cell builds exactly five groups. -/
theorem init_cell_groups_length (energy : ℚ) (rng : Rng) :
    ((init_cell energy rng).1).groups.length = 5 := by
  show ((initGroups (kindsList.zip (random_partition energy kindsList.length rng).1)
      (random_partition energy kindsList.length rng).2).1).length = 5
  rw [initGroups_length, List.length_zip, random_partition_length]
  rfl

/-- On an in-range stream the five group energies of init_cell sum exactly to
the cell energy: random_partition rescales its samples to the requested
total. -/
theorem init_cell_groups_sum (energy : ℚ) (rng : Rng)
    (hs : ∀ k, 1 / 2 ≤ rng.stream k ∧ rng.stream k < 3 / 2) :
    (((init_cell energy rng).1).groups.map EnergyGroup.total_energy).sum = energy := by
  have hlen5 : ((randomSamples kindsList.length rng).1).length = kindsList.length :=
    randomSamples_length _ rng
  have hbounds := randomSamples_bounds (1 / 2) (3 / 2) kindsList.length rng hs
  have hpos : 0 < ((randomSamples kindsList.length rng).1).sum := by
    apply List.sum_pos
    · intro x hx
      have := (hbounds x hx).1
      linarith
    · intro hnil
      rw [hnil] at hlen5
      simp [kindsList] at hlen5
  have hsum : ((random_partition energy kindsList.length rng).1).sum = energy :=
    random_partition_sum energy _ rng (ne_of_gt hpos)
  have hplen : ((random_partition energy kindsList.length rng).1).length =
      kindsList.length := random_partition_length _ _ _
  show ((initGroups (kindsList.zip (random_partition energy kindsList.length rng).1)
      (random_partition energy kindsList.length rng).2).1.map
        EnergyGroup.total_energy).sum = energy
  rw [initGroups_totals,
    List.map_snd_zip kindsList (random_partition energy kindsList.length rng).1
      (le_of_eq hplen), hsum]


/-- Every generated cell records the shared per-cell energy. -/
theorem initCells_totals (n : Nat) (per : ℚ) :
    ∀ rng : Rng, ((initCells n per rng).1).map Cell.total_energy = List.replicate n per := by
  induction n with
  | zero => intro rng; rfl
  | succ m ih =>
    intro rng
    show (init_cell per rng).1.total_energy ::
        ((initCells m per (init_cell per rng).2).1).map Cell.total_energy =
      per :: List.replicate m per
    rw [init_cell_total, ih]

/-- The generated cell list has exactly the requested length. -/
theorem initCells_length (n : Nat) (per : ℚ) :
    ∀ rng : Rng, ((initCells n per rng).1).length = n := by
  induction n with
  | zero => intro rng; rfl
  | succ m ih =>
    intro rng
    show ((init_cell per rng).1 :: (initCells m per (init_cell per rng).2).1).length = m + 1
    rw [List.length_cons, ih]

/-- On an in-range stream, every generated cell has the shared per-cell
energy, five groups, and group energies summing to the cell energy. -/
theorem initCells_mem (per : ℚ) (n : Nat) :
    ∀ rng : Rng, (∀ k, 1 / 2 ≤ rng.stream k ∧ rng.stream k < 3 / 2) →
      ∀ c ∈ (initCells n per rng).1,
        c.total_energy = per ∧ c.groups.length = 5 ∧
        (c.groups.map EnergyGroup.total_energy).sum = per := by
  induction n with
  | zero => intro rng _ c hc; simp [initCells] at hc
  | succ m ih =>
    intro rng hs c hc
    have hc2 : c ∈ (init_cell per rng).1 :: (initCells m per (init_cell per rng).2).1 := hc
    rw [List.mem_cons] at hc2
    rcases hc2 with hc2 | hc2
    · rw [hc2]
      exact ⟨init_cell_total per rng, init_cell_groups_length per rng,
        init_cell_groups_sum per rng hs⟩
    · have hs2 : ∀ k, 1 / 2 ≤ ((init_cell per rng).2).stream k ∧
          ((init_cell per rng).2).stream k < 3 / 2 := by
        intro k
        rw [init_cell_stream]
        exact hs k
      exact ih (init_cell per rng).2 hs2 c hc2

end Lib

/-- C10: for every in-range sample stream, every size with positive cell
count n and every total energy, generate_lattice builds exactly n cells, each
carrying total / n as its cell energy, with five groups whose energies sum
exactly to the cell energy. -/
theorem generate_lattice_uniform (rng : Lib.Rng) (size : Nat × Nat × Nat) (total : ℚ)
    (hs : ∀ k, 1 / 2 ≤ rng.stream k ∧ rng.stream k < 3 / 2)
    (_hn : 0 < size.1 * size.2.1 * size.2.2) :
    (Lib.generate_lattice rng size total).cells.length = size.1 * size.2.1 * size.2.2 ∧
    ∀ c ∈ (Lib.generate_lattice rng size total).cells,
      c.total_energy = total / ((size.1 * size.2.1 * size.2.2 : Nat) : ℚ) ∧
      c.groups.length = 5 ∧
      (c.groups.map Lib.EnergyGroup.total_energy).sum =
        total / ((size.1 * size.2.1 * size.2.2 : Nat) : ℚ) := by
  constructor
  · exact Lib.initCells_length (size.1 * size.2.1 * size.2.2)
      (total / ((size.1 * size.2.1 * size.2.2 : Nat) : ℚ)) rng
  · intro c hc
    exact Lib.initCells_mem (total / ((size.1 * size.2.1 * size.2.2 : Nat) : ℚ))
      (size.1 * size.2.1 * size.2.2) rng hs c hc

/-- C10 witness: with the constant unit stream, a 1 by 1 by 2 lattice and
twenty units of total energy, two cells are generated and each carries ten
units. -/
theorem generate_lattice_uniform_witness :
    (Lib.generate_lattice (Lib.exGen 0) (1, 1, 2) 20).cells.length = 1 * 1 * 2 ∧
    (Lib.generate_lattice (Lib.exGen 0) (1, 1, 2) 20).cells.map Lib.Cell.total_energy =
      [10, 10] := by
  constructor
  · exact (generate_lattice_uniform (Lib.exGen 0) (1, 1, 2) 20
      (fun k => ⟨by norm_num [Lib.exGen], by norm_num [Lib.exGen]⟩) (by norm_num)).1
  · have h := Lib.initCells_totals (1 * 1 * 2) (20 / ((1 * 1 * 2 : Nat) : ℚ)) (Lib.exGen 0)
    calc (Lib.generate_lattice (Lib.exGen 0) (1, 1, 2) 20).cells.map Lib.Cell.total_energy
        = List.replicate (1 * 1 * 2) (20 / ((1 * 1 * 2 : Nat) : ℚ)) := h
      _ = [10, 10] := by norm_num [List.replicate]

namespace Skel

/-- A locked expression pass preserves the row sum when the declared
percentages sum to one; an unlocked row is untouched. -/
theorem rowSum_apply_expr (c : CellState) (ec : Fin VARS → ExpressionConstraint) (i : Fin VARS)
    (h : (ec i).locked = true → ∑ f, (ec i).force_pct f = 1) :
    rowSum (apply_expression_constraints c ec) i = rowSum c i := by
  by_cases hlk : (ec i).locked = true
  · simp only [rowSum, apply_expression_constraints, hlk, if_true]
    rw [← Finset.mul_sum, h hlk, mul_one]
  · simp only [rowSum, apply_expression_constraints, if_neg hlk]

/-- Rescaling a row targets its sum exactly, in both the scaling branch and
the zero-total tie-break branch. -/
theorem rowSum_scaleRowTo (row : Fin FORCES → ℚ) (t : ℚ) :
    ∑ f, scaleRowTo row t f = t := by
  unfold scaleRowTo
  by_cases hs : (∑ f, row f) = 0
  · rw [if_pos hs, Finset.sum_const, Finset.card_univ]
    show (4 : ℕ) • (t / ((4 : ℕ) : ℚ)) = t
    rw [nsmul_eq_mul]
    push_cast
    ring
  · rw [if_neg hs, ← Finset.sum_mul]
    field_simp

/-- Rescaling a row whose sum already equals a nonzero target is the
identity. -/
theorem scaleRowTo_self (row : Fin FORCES → ℚ) (t : ℚ)
    (hsum : ∑ f, row f = t) (ht : t ≠ 0) : scaleRowTo row t = row := by
  unfold scaleRowTo
  rw [if_neg (by rw [hsum]; exact ht)]
  funext f
  rw [hsum, div_self ht, mul_one]

/-- Rescaling any row to the target zero produces the zero row. -/
theorem scaleRowTo_zero (row : Fin FORCES → ℚ) : scaleRowTo row 0 = fun _ => 0 := by
  unfold scaleRowTo
  by_cases hs : (∑ f, row f) = 0
  · rw [if_pos hs]
    funext f
    simp
  · rw [if_neg hs]
    funext f
    simp

/-- Rescaling to the same target twice equals rescaling once. -/
theorem scaleRowTo_idem (row : Fin FORCES → ℚ) (t : ℚ) :
    scaleRowTo (scaleRowTo row t) t = scaleRowTo row t := by
  by_cases ht : t = 0
  · subst ht
    rw [scaleRowTo_zero row, scaleRowTo_zero]
  · exact scaleRowTo_self _ t (rowSum_scaleRowTo row t) ht

/-- Rescaling a row proportional to a unit-sum percentage mix pins the mix:
the result is the target times the percentages. -/
theorem scaleRowTo_smul_pct (pct : Fin FORCES → ℚ) (s t : ℚ) (hs : s ≠ 0)
    (hp : ∑ f, pct f = 1) :
    scaleRowTo (fun f => s * pct f) t = fun f => t * pct f := by
  have hsum : (∑ f, s * pct f) = s := by rw [← Finset.mul_sum, hp, mul_one]
  unfold scaleRowTo
  simp only [hsum]
  rw [if_neg hs]
  funext f
  field_simp
  ring

/-- A row already of the form target times unit-sum percentages is a fixed
point of the rescaling. -/
theorem scaleRowTo_pct_self (pct : Fin FORCES → ℚ) (t : ℚ) (hp : ∑ f, pct f = 1) :
    scaleRowTo (fun f => t * pct f) t = fun f => t * pct f := by
  by_cases ht : t = 0
  · subst ht
    have h0 : (fun f => (0 : ℚ) * pct f) = fun _ => (0 : ℚ) := by
      funext f
      ring
    rw [h0, scaleRowTo_zero]
  · exact scaleRowTo_self _ t (by rw [← Finset.mul_sum, hp, mul_one]) ht


/-- Row of the expression pass at a locked variable. -/
theorem apply_expr_locked (c : CellState) (ec : Fin VARS → ExpressionConstraint)
    (i : Fin VARS) (h : (ec i).locked = true) :
    apply_expression_constraints c ec i = fun f => rowSum c i * (ec i).force_pct f := by
  funext f
  simp only [apply_expression_constraints, h, if_true]

/-- Row of the expression pass at an unlocked variable. -/
theorem apply_expr_unlocked (c : CellState) (ec : Fin VARS → ExpressionConstraint)
    (i : Fin VARS) (h : ¬ (ec i).locked = true) :
    apply_expression_constraints c ec i = c i := by
  funext f
  simp only [apply_expression_constraints, if_neg h]

/-- Row of the variable pass at a Free variable. -/
theorem apply_var_free (c : CellState) (vc : Fin VARS → VariableConstraint)
    (i : Fin VARS) (h : vc i = .Free) :
    apply_variable_constraints c vc i = c i := by
  simp only [apply_variable_constraints, h]

/-- Row of the variable pass at a FixedTotal variable. -/
theorem apply_var_total (c : CellState) (vc : Fin VARS → VariableConstraint)
    (i : Fin VARS) (t : ℚ) (h : vc i = .FixedTotal t) :
    apply_variable_constraints c vc i = scaleRowTo (c i) t := by
  simp only [apply_variable_constraints, h]

/-- Row of the variable pass at a FixedRatio variable. -/
theorem apply_var_ratio (c : CellState) (vc : Fin VARS → VariableConstraint)
    (i : Fin VARS) (r : Fin VARS → ℚ) (h : vc i = .FixedRatio r) :
    apply_variable_constraints c vc i =
      scaleRowTo (c i) ((r i / ∑ j, r j) * ratioTotal c vc) := by
  simp only [apply_variable_constraints, h]

/-- Row sum of the variable pass at a Free variable. -/
theorem rowSum_var_free (c : CellState) (vc : Fin VARS → VariableConstraint)
    (i : Fin VARS) (h : vc i = .Free) :
    rowSum (apply_variable_constraints c vc) i = rowSum c i := by
  unfold rowSum
  rw [apply_var_free c vc i h]

/-- Row sum of the variable pass at a FixedTotal variable. -/
theorem rowSum_var_total (c : CellState) (vc : Fin VARS → VariableConstraint)
    (i : Fin VARS) (t : ℚ) (h : vc i = .FixedTotal t) :
    rowSum (apply_variable_constraints c vc) i = t := by
  unfold rowSum
  rw [apply_var_total c vc i t h]
  exact rowSum_scaleRowTo (c i) t

/-- Row sum of the variable pass at a FixedRatio variable. -/
theorem rowSum_var_ratio (c : CellState) (vc : Fin VARS → VariableConstraint)
    (i : Fin VARS) (r : Fin VARS → ℚ) (h : vc i = .FixedRatio r) :
    rowSum (apply_variable_constraints c vc) i =
      (r i / ∑ j, r j) * ratioTotal c vc := by
  unfold rowSum
  rw [apply_var_ratio c vc i r h]
  exact rowSum_scaleRowTo (c i) _

/-- The expression pass preserves the combined total of the
ratio-constrained rows when locked percentages sum to one. -/
theorem ratioTotal_expr (c : CellState) (ec : Fin VARS → ExpressionConstraint)
    (vc : Fin VARS → VariableConstraint)
    (hpct : ∀ i, (ec i).locked = true → ∑ f, (ec i).force_pct f = 1) :
    ratioTotal (apply_expression_constraints c ec) vc = ratioTotal c vc := by
  unfold ratioTotal
  exact Finset.sum_congr rfl (fun i _ => rowSum_apply_expr c ec i (hpct i))

/-- The variable pass preserves the combined total of the ratio-constrained
rows when the normalized ratio weights of those rows sum to one. -/
theorem ratioTotal_var (c : CellState) (vc : Fin VARS → VariableConstraint)
    (hratio : (∃ i, (vc i).isRatio = true) →
      ∑ i ∈ Finset.univ.filter (fun i => (vc i).isRatio = true),
        (vc i).ratioCoeff i = 1) :
    ratioTotal (apply_variable_constraints c vc) vc = ratioTotal c vc := by
  by_cases hR : ∃ i, (vc i).isRatio = true
  · have hco := hratio hR
    unfold ratioTotal
    have hstep : ∀ i ∈ Finset.univ.filter (fun i => (vc i).isRatio = true),
        rowSum (apply_variable_constraints c vc) i =
          (vc i).ratioCoeff i * ratioTotal c vc := by
      intro i hi
      rw [Finset.mem_filter] at hi
      obtain ⟨r, hr⟩ : ∃ r, vc i = .FixedRatio r := by
        rcases hvi : vc i with _ | t | r
        · rw [hvi] at hi
          simp [VariableConstraint.isRatio] at hi
        · rw [hvi] at hi
          simp [VariableConstraint.isRatio] at hi
        · exact ⟨r, rfl⟩
      rw [rowSum_var_ratio c vc i r hr, hr]
      rfl
    rw [Finset.sum_congr rfl hstep, ← Finset.sum_mul]
    have hco2 : (∑ i ∈ Finset.univ.filter (fun i => (vc i).isRatio = true),
        (vc i).ratioCoeff i) = 1 := hco
    rw [hco2, one_mul]
    rfl
  · have hempty : Finset.univ.filter (fun i => (vc i).isRatio = true) = ∅ := by
      rw [Finset.filter_eq_empty_iff]
      intro i _
      exact fun h => hR ⟨i, h⟩
    unfold ratioTotal
    rw [hempty, Finset.sum_empty, Finset.sum_empty]

end Skel

namespace Skel

/-- Core idempotence argument for the expression-then-variable projection,
for any well-configured pair of constraint families: locked percentages sum
to one, the normalized FixedRatio weights of the ratio-constrained variables
sum to one, and no locked constrained row of the input has zero sum. -/
theorem project_aux (c : CellState) (ec : Fin VARS → ExpressionConstraint)
    (vc : Fin VARS → VariableConstraint)
    (hpct : ∀ i, (ec i).locked = true → ∑ f, (ec i).force_pct f = 1)
    (hratio : (∃ i, (vc i).isRatio = true) →
      ∑ i ∈ Finset.univ.filter (fun i => (vc i).isRatio = true),
        (vc i).ratioCoeff i = 1)
    (hlock : ∀ i, (ec i).locked = true → vc i ≠ .Free → rowSum c i ≠ 0) :
    apply_variable_constraints (apply_expression_constraints
        (apply_variable_constraints (apply_expression_constraints c ec) vc) ec) vc =
      apply_variable_constraints (apply_expression_constraints c ec) vc := by
  set E := apply_expression_constraints c ec with hEdef
  set D := apply_variable_constraints E vc with hDdef
  set G := apply_expression_constraints D ec with hGdef
  have hTe : ratioTotal E vc = ratioTotal c vc := by
    rw [hEdef]
    exact ratioTotal_expr c ec vc hpct
  have hTd : ratioTotal D vc = ratioTotal E vc := by
    rw [hDdef]
    exact ratioTotal_var E vc hratio
  have hTg : ratioTotal G vc = ratioTotal D vc := by
    rw [hGdef]
    exact ratioTotal_expr D ec vc hpct
  funext i
  rcases hvc : vc i with _ | t | r
  · -- Free
    rw [apply_var_free G vc i hvc]
    have hDi : D i = E i := by
      rw [hDdef]
      exact apply_var_free E vc i hvc
    by_cases hlk : (ec i).locked = true
    · have hGi : G i = fun f => rowSum D i * (ec i).force_pct f := by
        rw [hGdef]
        exact apply_expr_locked D ec i hlk
      have hEi : E i = fun f => rowSum c i * (ec i).force_pct f := by
        rw [hEdef]
        exact apply_expr_locked c ec i hlk
      have h1 : rowSum D i = rowSum E i := by
        rw [hDdef]
        exact rowSum_var_free E vc i hvc
      have h2 : rowSum E i = rowSum c i := by
        rw [hEdef]
        exact rowSum_apply_expr c ec i (hpct i)
      rw [hGi, h1, h2, hDi, hEi]
    · have hGi : G i = D i := by
        rw [hGdef]
        exact apply_expr_unlocked D ec i hlk
      rw [hGi]
  · -- FixedTotal t
    rw [apply_var_total G vc i t hvc]
    have hDi : D i = scaleRowTo (E i) t := by
      rw [hDdef]
      exact apply_var_total E vc i t hvc
    by_cases hlk : (ec i).locked = true
    · have hs : rowSum c i ≠ 0 := hlock i hlk (by rw [hvc]; simp)
      have hEi : E i = fun f => rowSum c i * (ec i).force_pct f := by
        rw [hEdef]
        exact apply_expr_locked c ec i hlk
      have hDi2 : D i = fun f => t * (ec i).force_pct f := by
        rw [hDi, hEi]
        exact scaleRowTo_smul_pct (ec i).force_pct (rowSum c i) t hs (hpct i hlk)
      have hrsD : rowSum D i = t := by
        rw [hDdef]
        exact rowSum_var_total E vc i t hvc
      have hGi : G i = fun f => rowSum D i * (ec i).force_pct f := by
        rw [hGdef]
        exact apply_expr_locked D ec i hlk
      rw [hGi, hrsD, hDi2]
      exact scaleRowTo_pct_self (ec i).force_pct t (hpct i hlk)
    · have hGi : G i = D i := by
        rw [hGdef]
        exact apply_expr_unlocked D ec i hlk
      rw [hGi, hDi]
      exact scaleRowTo_idem (E i) t
  · -- FixedRatio r
    rw [apply_var_ratio G vc i r hvc, hTg, hTd]
    have hDi : D i = scaleRowTo (E i) ((r i / ∑ j, r j) * ratioTotal E vc) := by
      rw [hDdef]
      exact apply_var_ratio E vc i r hvc
    by_cases hlk : (ec i).locked = true
    · have hs : rowSum c i ≠ 0 := hlock i hlk (by rw [hvc]; simp)
      have hEi : E i = fun f => rowSum c i * (ec i).force_pct f := by
        rw [hEdef]
        exact apply_expr_locked c ec i hlk
      have hDi2 : D i = fun f => ((r i / ∑ j, r j) * ratioTotal E vc) * (ec i).force_pct f := by
        rw [hDi, hEi]
        exact scaleRowTo_smul_pct (ec i).force_pct (rowSum c i) _ hs (hpct i hlk)
      have hrsD : rowSum D i = (r i / ∑ j, r j) * ratioTotal E vc := by
        rw [hDdef]
        exact rowSum_var_ratio E vc i r hvc
      have hGi : G i = fun f => rowSum D i * (ec i).force_pct f := by
        rw [hGdef]
        exact apply_expr_locked D ec i hlk
      rw [hGi, hrsD, hDi2]
      exact scaleRowTo_pct_self (ec i).force_pct _ (hpct i hlk)
    · have hGi : G i = D i := by
        rw [hGdef]
        exact apply_expr_unlocked D ec i hlk
      rw [hGi, hDi]
      exact scaleRowTo_idem (E i) _

end Skel

/-- C5 counterexample: on the all-zero cell with variable 0 expression-locked
onto force 0 and constrained to FixedTotal 5, one projection produces the
uniform tie-break row (5/4 in every force), while a second projection pins
the row back onto force 0 (5,0,0,0): project_energy is not idempotent for
every cell state and constraint set. -/
theorem project_energy_not_idempotent :
    Skel.project_energy (Skel.project_energy Skel.cexCell Skel.cexConstraints)
      Skel.cexConstraints ≠ Skel.project_energy Skel.cexCell Skel.cexConstraints := by
  intro h
  have h1 := congrFun (congrFun h 0) 1
  have hR : Skel.project_energy Skel.cexCell Skel.cexConstraints 0 1 = 5 / 4 := by
    norm_num [Skel.project_energy, Skel.apply_variable_constraints,
      Skel.apply_expression_constraints, Skel.scaleRowTo, Skel.rowSum, Skel.ratioTotal,
      Skel.cexCell, Skel.cexConstraints, Skel.fullMask, Fin.sum_univ_four]
  have hL : Skel.project_energy (Skel.project_energy Skel.cexCell Skel.cexConstraints)
      Skel.cexConstraints 0 1 = 0 := by
    norm_num [Skel.project_energy, Skel.apply_variable_constraints,
      Skel.apply_expression_constraints, Skel.scaleRowTo, Skel.rowSum, Skel.ratioTotal,
      Skel.cexCell, Skel.cexConstraints, Skel.fullMask, Fin.sum_univ_four]
  rw [hR, hL] at h1
  norm_num at h1

/-- C5 amended: project_energy is idempotent for every cell state and
constraint set that satisfy the declared configuration invariants (locked
percentage mixes sum to one; the normalized FixedRatio weights of the
ratio-constrained variables sum to one) and in which no expression-locked,
total- or ratio-constrained row of the cell has zero sum, so that the
zero-total tie-break cannot fight the pinned force mix. -/
theorem project_energy_idem (c : Skel.CellState) (cs : Skel.ConstraintSet)
    (hpct : ∀ i, (cs.expr_constraints i).locked = true →
      ∑ f, (cs.expr_constraints i).force_pct f = 1)
    (hratio : (∃ i, (cs.var_constraints i).isRatio = true) →
      ∑ i ∈ Finset.univ.filter (fun i => (cs.var_constraints i).isRatio = true),
        (cs.var_constraints i).ratioCoeff i = 1)
    (hlock : ∀ i, (cs.expr_constraints i).locked = true →
      cs.var_constraints i ≠ .Free → Skel.rowSum c i ≠ 0) :
    Skel.project_energy (Skel.project_energy c cs) cs = Skel.project_energy c cs := by
  unfold Skel.project_energy
  exact Skel.project_aux c cs.expr_constraints cs.var_constraints hpct hratio hlock

/-- C5 witness: on the all-ones cell with variable 0 expression-locked with
the uniform percentage mix and FixedTotal 5, the three hypotheses hold
concretely and projecting twice equals projecting once. -/
theorem project_energy_idem_witness :
    Skel.project_energy (Skel.project_energy Skel.idemCell Skel.idemConstraints)
      Skel.idemConstraints = Skel.project_energy Skel.idemCell Skel.idemConstraints := by
  refine project_energy_idem Skel.idemCell Skel.idemConstraints ?_ ?_ ?_
  · intro i hi
    fin_cases i <;>
      simp [Skel.idemConstraints, Fin.sum_univ_four, Fin.ext_iff] at hi ⊢
  · intro hex
    exfalso
    obtain ⟨i, hi⟩ := hex
    fin_cases i <;>
      simp [Skel.idemConstraints, Skel.VariableConstraint.isRatio, Fin.ext_iff] at hi
  · intro i hi _
    fin_cases i <;>
      simp [Skel.idemConstraints, Skel.idemCell, Skel.rowSum, Fin.sum_univ_four,
        Fin.ext_iff] at hi ⊢
